import Mathlib

set_option maxRecDepth 10000

/-! Verification development for the MemoryStack Claude Code plugin.

The JavaScript sources are shallowly embedded: JavaScript/JSON values become
the inductive type JSVal, runtime type errors become an Except layer, the
persisted capture-state file becomes an explicit map from project key to
cursor, and the JSON.parse builtin becomes an executable recursive-descent
parser over the character list of the input. -/

/-- Shallow embedding of a JavaScript/JSON value. -/
inductive JSVal where
  | undef : JSVal
  | nullv : JSVal
  | bool (b : Bool) : JSVal
  | num (n : Int) : JSVal
  | str (s : String) : JSVal
  | arr (elems : List JSVal) : JSVal
  | obj (fields : List (String × JSVal)) : JSVal
deriving Inhabited

/-- A JavaScript runtime exception (the only kind these sources can raise). -/
inductive JSErr where
  | typeError (msg : String) : JSErr
deriving Repr, DecidableEq

/-- JavaScript truthiness of a value. -/
def JSVal.truthy : JSVal → Bool
  | .undef => false
  | .nullv => false
  | .bool b => b
  | .num n => n != 0
  | .str s => s != ""
  | .arr _ => true
  | .obj _ => true

/-- JavaScript logical-or: the first operand when truthy, else the second. -/
def jsOr (a b : JSVal) : JSVal := if a.truthy then a else b

def quoteChar : Char := Char.ofNat 34

def backslashChar : Char := Char.ofNat 92

def openBraceChar : Char := Char.ofNat 123

def closeBraceChar : Char := Char.ofNat 125

def openBracketChar : Char := Char.ofNat 91

def closeBracketChar : Char := Char.ofNat 93

mutual

/-- JavaScript String(x) / template-literal conversion of a value. -/
def jsToString : JSVal → String
  | .undef => "undefined"
  | .nullv => "null"
  | .bool b => if b then "true" else "false"
  | .num n => toString n
  | .str s => s
  | .arr xs => arrayJoinComma xs
  | .obj _ => "[object Object]"

/-- Array.prototype.toString: elements joined by commas, null and undefined
rendering as empty strings. -/
def arrayJoinComma : List JSVal → String
  | [] => ""
  | [x] => arrayElemStr x
  | x :: y :: rest => arrayElemStr x ++ "," ++ arrayJoinComma (y :: rest)

/-- How one array element renders inside Array.prototype.join. -/
def arrayElemStr : JSVal → String
  | .undef => ""
  | .nullv => ""
  | .bool b => if b then "true" else "false"
  | .num n => toString n
  | .str s => s
  | .arr xs => arrayJoinComma xs
  | .obj _ => "[object Object]"

end

/-- JSON string escaping for JSON.stringify. -/
def quoteJson (s : String) : String :=
  let esc : Char → String := fun c =>
    if c = quoteChar then String.mk [backslashChar, quoteChar]
    else if c = backslashChar then String.mk [backslashChar, backslashChar]
    else if c = Char.ofNat 10 then String.mk [backslashChar, 'n']
    else if c = Char.ofNat 9 then String.mk [backslashChar, 't']
    else if c = Char.ofNat 13 then String.mk [backslashChar, 'r']
    else if c.toNat < 32 then
      String.mk [backslashChar, 'u', '0', '0',
        Char.ofNat (if c.toNat / 16 < 10 then 48 + c.toNat / 16 else 87 + c.toNat / 16),
        Char.ofNat (if c.toNat % 16 < 10 then 48 + c.toNat % 16 else 87 + c.toNat % 16)]
    else String.singleton c
  String.join (s.toList.map esc)

mutual

/-- JSON.stringify; none models the undefined result (top-level undefined). -/
def jsonStringify : JSVal → Option String
  | .undef => none
  | .nullv => some "null"
  | .bool b => some (if b then "true" else "false")
  | .num n => some (toString n)
  | .str s => some (String.singleton quoteChar ++ quoteJson s ++ String.singleton quoteChar)
  | .arr xs => some (String.singleton openBracketChar ++ stringifyElems xs ++ String.singleton closeBracketChar)
  | .obj fs => some (String.singleton openBraceChar ++ stringifyFields fs ++ String.singleton closeBraceChar)

/-- Array elements under JSON.stringify; undefined entries render as null. -/
def stringifyElems : List JSVal → String
  | [] => ""
  | [x] => (jsonStringify x).getD "null"
  | x :: y :: rest => (jsonStringify x).getD "null" ++ "," ++ stringifyElems (y :: rest)

/-- Object fields under JSON.stringify; undefined-valued fields are skipped. -/
def stringifyFields : List (String × JSVal) → String
  | [] => ""
  | (k, v) :: rest =>
    match jsonStringify v with
    | none => stringifyFields rest
    | some sv =>
      let entry := String.singleton quoteChar ++ quoteJson k ++ String.singleton quoteChar ++ ":" ++ sv
      match rest with
      | [] => entry
      | _ :: _ =>
        let tail := stringifyFields rest
        if tail = "" then entry else entry ++ "," ++ tail

end

/-- Insert or overwrite a key in an object field list, keeping first position
(JavaScript object semantics for duplicate keys). -/
def upsert (fs : List (String × JSVal)) (k : String) (v : JSVal) : List (String × JSVal) :=
  if fs.any (fun p => p.1 = k) then
    fs.map (fun p => if p.1 = k then (k, v) else p)
  else fs ++ [(k, v)]

/-- JSON whitespace. -/
def isJsonWs (c : Char) : Bool :=
  c = ' ' || c = Char.ofNat 9 || c = Char.ofNat 10 || c = Char.ofNat 13

def skipJsonWs (cs : List Char) : List Char := cs.dropWhile isJsonWs

def hexVal (c : Char) : Option Nat :=
  if c.isDigit then some (c.toNat - 48)
  else if 97 ≤ c.toNat ∧ c.toNat ≤ 102 then some (c.toNat - 87)
  else if 65 ≤ c.toNat ∧ c.toNat ≤ 70 then some (c.toNat - 55)
  else none

def parseLit (lit : List Char) (cs : List Char) : Option (List Char) :=
  match lit, cs with
  | [], rest => some rest
  | l :: ls, c :: rest => if c = l then parseLit ls rest else none
  | _ :: _, [] => none

def escChar (e : Char) : Option Char :=
  if e = quoteChar then some quoteChar
  else if e = backslashChar then some backslashChar
  else if e = '/' then some '/'
  else if e = 'n' then some (Char.ofNat 10)
  else if e = 't' then some (Char.ofNat 9)
  else if e = 'r' then some (Char.ofNat 13)
  else if e = 'b' then some (Char.ofNat 8)
  else if e = 'f' then some (Char.ofNat 12)
  else none

def parseStrBody (fuel : Nat) (acc : List Char) (cs : List Char) : Option (String × List Char) :=
  match fuel with
  | 0 => none
  | fuel + 1 =>
    match cs with
    | [] => none
    | c :: rest =>
      if c = quoteChar then some (String.mk acc.reverse, rest)
      else if c = backslashChar then
        match rest with
        | [] => none
        | e :: rest2 =>
          if e = 'u' then
            match rest2 with
            | a :: b :: c2 :: d :: rest3 =>
              match hexVal a, hexVal b, hexVal c2, hexVal d with
              | some ha, some hb, some hc, some hd =>
                parseStrBody fuel (Char.ofNat (((ha * 16 + hb) * 16 + hc) * 16 + hd) :: acc) rest3
              | _, _, _, _ => none
            | _ => none
          else
            match escChar e with
            | some ec => parseStrBody fuel (ec :: acc) rest2
            | none => none
      else if c.toNat < 32 then none
      else parseStrBody fuel (c :: acc) rest

def digitsToNat (ds : List Char) : Nat :=
  ds.foldl (fun a c => a * 10 + (c.toNat - 48)) 0

/-- Require at least one digit, then skip the run of digits. -/
def skipDigits1 (cs : List Char) : Option (List Char) :=
  match cs with
  | c :: rest => if c.isDigit then some (rest.dropWhile Char.isDigit) else none
  | [] => none

/-- Parse the optional fraction and exponent after the integer part. The value
kept is the integer part; fractional magnitude plays no role in any property
proved in this development. -/
def afterInt (neg : Bool) (ip : Nat) (cs : List Char) : Option (Int × List Char) := do
  let cs2 ←
    match cs with
    | c :: rest => if c = '.' then skipDigits1 rest else pure cs
    | [] => pure cs
  let cs3 ←
    match cs2 with
    | c :: rest =>
      if c = 'e' ∨ c = 'E' then
        let rest2 :=
          match rest with
          | s :: r2 => if s = '+' ∨ s = '-' then r2 else rest
          | [] => rest
        skipDigits1 rest2
      else pure cs2
    | [] => pure cs2
  pure (if neg then -(ip : Int) else (ip : Int), cs3)

def parseNum (cs : List Char) : Option (Int × List Char) :=
  let negSplit : Bool × List Char :=
    match cs with
    | c :: rest => if c = '-' then (true, rest) else (false, cs)
    | [] => (false, cs)
  match negSplit.2 with
  | [] => none
  | c :: rest =>
    if c = '0' then afterInt negSplit.1 0 rest
    else if c.isDigit then
      afterInt negSplit.1 (digitsToNat ((c :: rest).takeWhile Char.isDigit))
        ((c :: rest).dropWhile Char.isDigit)
    else none

mutual

/-- Recursive-descent model of JSON.parse on a character list. -/
def parseVal (fuel : Nat) (cs : List Char) : Option (JSVal × List Char) :=
  match fuel with
  | 0 => none
  | fuel + 1 =>
    match skipJsonWs cs with
    | [] => none
    | c :: rest =>
      if c = quoteChar then
        (parseStrBody (rest.length + 1) [] rest).map (fun p => (JSVal.str p.1, p.2))
      else if c = openBraceChar then
        match skipJsonWs rest with
        | c2 :: r2 =>
          if c2 = closeBraceChar then some (JSVal.obj [], r2)
          else parseMembers fuel (skipJsonWs rest) []
        | [] => none
      else if c = openBracketChar then
        match skipJsonWs rest with
        | c2 :: r2 =>
          if c2 = closeBracketChar then some (JSVal.arr [], r2)
          else parseElems fuel (skipJsonWs rest) []
        | [] => none
      else if c = 't' then (parseLit ['r', 'u', 'e'] rest).map (fun r => (JSVal.bool true, r))
      else if c = 'f' then (parseLit ['a', 'l', 's', 'e'] rest).map (fun r => (JSVal.bool false, r))
      else if c = 'n' then (parseLit ['u', 'l', 'l'] rest).map (fun r => (JSVal.nullv, r))
      else (parseNum (c :: rest)).map (fun p => (JSVal.num p.1, p.2))

def parseElems (fuel : Nat) (cs : List Char) (acc : List JSVal) : Option (JSVal × List Char) :=
  match fuel with
  | 0 => none
  | fuel + 1 =>
    match parseVal fuel cs with
    | none => none
    | some (v, r) =>
      match skipJsonWs r with
      | c :: rest =>
        if c = ',' then parseElems fuel rest (v :: acc)
        else if c = closeBracketChar then some (JSVal.arr (v :: acc).reverse, rest)
        else none
      | [] => none

def parseMembers (fuel : Nat) (cs : List Char) (acc : List (String × JSVal)) :
    Option (JSVal × List Char) :=
  match fuel with
  | 0 => none
  | fuel + 1 =>
    match skipJsonWs cs with
    | c :: rest =>
      if c = quoteChar then
        match parseStrBody (rest.length + 1) [] rest with
        | none => none
        | some (k, r1) =>
          match skipJsonWs r1 with
          | c2 :: r2 =>
            if c2 = ':' then
              match parseVal fuel r2 with
              | none => none
              | some (v, r3) =>
                match skipJsonWs r3 with
                | c3 :: r4 =>
                  if c3 = ',' then parseMembers fuel r4 (upsert acc k v)
                  else if c3 = closeBraceChar then some (JSVal.obj (upsert acc k v), r4)
                  else none
                | [] => none
            else none
          | [] => none
      else none
    | [] => none

end

/-- Model of JSON.parse on a whole string; none models a thrown SyntaxError. -/
def jsonParse (s : String) : Option JSVal :=
  match parseVal (s.length + 1) s.toList with
  | some (v, rest) => if skipJsonWs rest = [] then some v else none
  | none => none

-- ─── Shared string and property helpers ─────────────────────────────

/-- Model of JavaScript s.slice(0, n) on a string. -/
def sliceN (s : String) (n : Nat) : String := String.mk (s.toList.take n)

/-- Property access on a non-nullish value (never throws in JavaScript). -/
def propTotal (v : JSVal) (k : String) : JSVal :=
  match v with
  | .obj fs => fs.foldl (fun acc p => if p.1 = k then p.2 else acc) .undef
  | .str s => if k = "length" then .num s.length else .undef
  | .arr xs => if k = "length" then .num xs.length else .undef
  | _ => (.undef)

/-- Optional chaining input?.k. -/
def optProp (v : JSVal) (k : String) : JSVal :=
  match v with
  | .undef => .undef
  | .nullv => .undef
  | v => propTotal v k

/-- Plain property access: throws a TypeError on null/undefined receivers. -/
def rawProp (v : JSVal) (k : String) : Except JSErr JSVal :=
  match v with
  | .undef => .error (.typeError ("cannot read " ++ k))
  | .nullv => .error (.typeError ("cannot read " ++ k))
  | v => .ok (propTotal v k)

/-- Calling a String.prototype method on a non-string throws a TypeError. -/
def asStr : JSVal → Except JSErr String
  | .str s => .ok s
  | _ => .error (.typeError "not a string")

/-- Character-list model of String.trim (both implementations drop the same
whitespace class at both ends). -/
def trimStr (s : String) : String :=
  String.mk (((s.toList.dropWhile Char.isWhitespace).reverse.dropWhile Char.isWhitespace).reverse)

def lowerChar (c : Char) : Char :=
  if 65 ≤ c.toNat ∧ c.toNat ≤ 90 then Char.ofNat (c.toNat + 32) else c

/-- Character-list model of toLowerCase. -/
def toLowerStr (s : String) : String := String.mk (s.toList.map lowerChar)

def splitCharsGo (sep : Char) : List Char → List Char → List String
  | acc, [] => [String.mk acc.reverse]
  | acc, c :: rest =>
    if c = sep then String.mk acc.reverse :: splitCharsGo sep [] rest
    else splitCharsGo sep (c :: acc) rest

/-- Character-list model of split on a one-character separator. -/
def splitOnChar (sep : Char) (s : String) : List String := splitCharsGo sep [] s.toList

/-- Character-list model of String.map. -/
def mapStr (f : Char → Char) (s : String) : String := String.mk (s.toList.map f)

def newlineChar : Char := Char.ofNat 10

def jsToLower (v : JSVal) : Except JSErr String := do
  let s ← asStr v
  .ok (toLowerStr s)

/-- Substring membership starting at the head (needle first). -/
def startsWithChars : List Char → List Char → Bool
  | [], _ => true
  | _ :: _, [] => false
  | a :: as, b :: bs => a = b && startsWithChars as bs

/-- Model of JavaScript hay.includes(needle). -/
def inclChars : List Char → List Char → Bool
  | [], needle => needle.isEmpty
  | c :: rest, needle => startsWithChars needle (c :: rest) || inclChars rest needle

def strIncl (hay needle : String) : Bool := inclChars hay.toList needle.toList

/-- Collapse each whitespace run into a single space (replace(/\s+/g, ' ')).
The flag records whether the previous character was whitespace. -/
def collapseWsGo : Bool → List Char → List Char
  | _, [] => []
  | prevWs, c :: rest =>
    if c.isWhitespace then
      (if prevWs then [] else [' ']) ++ collapseWsGo true rest
    else c :: collapseWsGo false rest

def collapseWs (s : String) : String := String.mk (collapseWsGo false s.toList)

def quoteMark : String := String.singleton (Char.ofNat 39)

-- ─── Observation compressor (src/lib/compress.js, bundled variant) ──

/-- Helper truncate(text, maxLen): empty for falsy input, else collapse
whitespace, trim, and cut to maxLen with an ellipsis. Throws when a truthy
non-string reaches text.replace. -/
def truncate (v : JSVal) (maxLen : Nat) : Except JSErr String :=
  if ¬ v.truthy then .ok ""
  else do
    let text ← asStr v
    let clean := trimStr (collapseWs text)
    if clean.length ≤ maxLen then .ok clean
    else .ok (sliceN clean (maxLen - 3) ++ "...")

/-- Helper extractBasename: last two path segments of a path string. -/
def extractBasename (v : JSVal) : Except JSErr String :=
  if ¬ v.truthy then .ok "unknown"
  else do
    let s ← asStr v
    let parts := splitOnChar '/' (mapStr (fun c => if c = backslashChar then '/' else c) s)
    .ok (String.intercalate "/" (parts.drop (parts.length - 2)))

def extractFilePath (input : JSVal) : Except JSErr String :=
  if ¬ input.truthy then .ok "unknown"
  else
    extractBasename (jsOr (propTotal input "file_path") (jsOr (propTotal input "path")
      (jsOr (propTotal input "file") (jsOr (propTotal input "filename")
        (jsOr (propTotal input "target_file") (.str ""))))))

/-- Normalize tool output from the hook format to a plain string. -/
def normalizeOutput (v : JSVal) : String :=
  if ¬ v.truthy then ""
  else
    match v with
    | .str s => s
    | .obj _ =>
      if (propTotal v "output").truthy then jsToString (propTotal v "output")
      else if (propTotal v "stdout").truthy then jsToString (propTotal v "stdout")
      else if (propTotal v "result").truthy then jsToString (propTotal v "result")
      else if (propTotal v "content").truthy then jsToString (propTotal v "content")
      else
        match propTotal v "success" with
        | .undef => sliceN ((jsonStringify v).getD "") 200
        | sv => if sv.truthy then "success" else "failed"
    | .arr _ =>
      if (propTotal v "output").truthy then jsToString (propTotal v "output")
      else if (propTotal v "stdout").truthy then jsToString (propTotal v "stdout")
      else if (propTotal v "result").truthy then jsToString (propTotal v "result")
      else if (propTotal v "content").truthy then jsToString (propTotal v "content")
      else
        match propTotal v "success" with
        | .undef => sliceN ((jsonStringify v).getD "") 200
        | sv => if sv.truthy then "success" else "failed"
    | v => jsToString v

def compressEdit (input : JSVal) (_output : String) : Except JSErr String := do
  let file ← extractFilePath input
  let oldText ← truncate (jsOr (optProp input "old_text") (jsOr (optProp input "old_string")
    (jsOr (optProp input "target") (.str "")))) 40
  let newText ← truncate (jsOr (optProp input "new_text") (jsOr (optProp input "new_string")
    (jsOr (optProp input "replacement") (.str "")))) 40
  if oldText ≠ "" ∧ newText ≠ "" then
    .ok ("Edited " ++ file ++ ": " ++ quoteMark ++ oldText ++ quoteMark ++ " → " ++ quoteMark ++ newText ++ quoteMark)
  else .ok ("Edited " ++ file)

def compressWrite (input : JSVal) (_output : String) : Except JSErr String := do
  let file ← extractFilePath input
  let content := jsOr (optProp input "content") (jsOr (optProp input "file_text") (.str ""))
  .ok ("Created " ++ file ++ " (" ++ jsToString (propTotal content "length") ++ " chars)")

def compressRead (input : JSVal) (_output : String) : Except JSErr String := do
  let file ← extractFilePath input
  .ok ("Read " ++ file)

def compressBash (input : JSVal) (output : String) : Except JSErr String := do
  let cmd ← truncate (jsOr (optProp input "command") (jsOr (optProp input "cmd")
    (jsOr (optProp input "description") (.str "")))) 60
  let result ← truncate (.str output) 60
  if cmd ≠ "" ∧ result ≠ "" then .ok ("Ran: " ++ cmd ++ " → " ++ result)
  else if cmd ≠ "" then .ok ("Ran: " ++ cmd)
  else .ok "Ran bash command"

def compressSearch (input : JSVal) (output : String) : Except JSErr String := do
  let pattern := jsOr (optProp input "pattern") (jsOr (optProp input "glob")
    (jsOr (optProp input "query") (.str "")))
  let t ← truncate pattern 30
  let count := ((splitOnChar newlineChar output).filter (fun l => trimStr l ≠ "")).length
  .ok ("Searched " ++ quoteMark ++ t ++ quoteMark ++ " → " ++ toString count ++ " results")

def compressGrep (input : JSVal) (_output : String) : Except JSErr String := do
  let query := jsOr (optProp input "query") (jsOr (optProp input "pattern") (.str ""))
  let pathVal := jsOr (optProp input "path") (jsOr (optProp input "search_path") (.str ""))
  let tq ← truncate query 30
  let base ← extractBasename pathVal
  .ok ("Grep " ++ quoteMark ++ tq ++ quoteMark ++ " in " ++ base)

def compressGeneric (toolName : JSVal) (_input : JSVal) (output : String) : Except JSErr String := do
  let summary ← truncate (.str output) 60
  .ok (jsToString toolName ++ ": " ++ (if summary = "" then "(completed)" else summary))

def compressDispatch (name : String) (toolName input : JSVal) (outputStr : String) :
    Except JSErr String :=
  if name = "edit" ∨ name = "editfile" ∨ name = "edit_file" then compressEdit input outputStr
  else if name = "write" ∨ name = "writefile" ∨ name = "write_to_file" ∨ name = "createfile" then
    compressWrite input outputStr
  else if name = "read" ∨ name = "readfile" ∨ name = "read_file" ∨ name = "view" then
    compressRead input outputStr
  else if name = "bash" ∨ name = "terminal" ∨ name = "execute_command" then
    compressBash input outputStr
  else if name = "glob" ∨ name = "search" ∨ name = "find" ∨ name = "list" ∨ name = "listdir" then
    compressSearch input outputStr
  else if name = "grep" ∨ name = "ripgrep" then compressGrep input outputStr
  else compressGeneric toolName input outputStr

/-- Model of the try/catch around the dispatch switch. -/
def catchWith (e : Except JSErr String) (d : String) : String :=
  match e with
  | .ok s => s
  | .error _ => d

/-- compressObservation(toolName, input, output). The (toolName || '')
  .toLowerCase() step and normalizeOutput run before the protective try block,
so a truthy non-string tool name raises before the catch can intervene. -/
def compressObservation (toolName input output : JSVal) : Except JSErr String := do
  let name ← jsToLower (jsOr toolName (.str ""))
  let outputStr := normalizeOutput output
  .ok (catchWith (compressDispatch name toolName input outputStr)
    ("Used " ++ jsToString (jsOr toolName (.str "unknown tool"))))

-- ─── Transcript parser & turn grouper (src/lib/transcript-formatter.js) ──

/-- One parsed transcript entry. Fields mirror the properties the formatter
reads from a parsed JSONL line. -/
structure Entry where
  index : Int
  role : JSVal
  type : JSVal
  content : JSVal
  message : JSVal
  name : JSVal
  tool_name : JSVal
  input : JSVal
  tool_input : JSVal
  output : JSVal
deriving Inhabited

/-- Own-property lookup used by object spread: only object fields carry the
named properties the formatter reads (a spread string contributes only
numeric character keys, a spread number or null contributes nothing). -/
def spreadProp (v : JSVal) (k : String) : JSVal :=
  match v with
  | .obj fs => fs.foldl (fun acc p => if p.1 = k then p.2 else acc) .undef
  | _ => (.undef)

/-- Build an entry from a parsed JSON line: the literal is (openBrace) index: i,
...entry (closeBrace), so an own index field of the parsed object overrides the
positional index. A numeric override is modelled; non-numeric overrides (which
JavaScript later coerces through Math.max and >=) are outside this embedding
and fall back to the positional index. -/
def entryOfJson (i : Nat) (v : JSVal) : Entry :=
  { index := (match spreadProp v "index" with | .num n => n | _ => (i : Int))
    role := spreadProp v "role"
    type := spreadProp v "type"
    content := spreadProp v "content"
    message := spreadProp v "message"
    name := spreadProp v "name"
    tool_name := spreadProp v "tool_name"
    input := spreadProp v "input"
    tool_input := spreadProp v "tool_input"
    output := spreadProp v "output" }

/-- A line that fails JSON.parse becomes a plain text entry. -/
def freeTextEntry (i : Nat) (line : String) : Entry :=
  { index := (i : Int)
    role := .undef
    type := .str "text"
    content := .str line
    message := .undef
    name := .undef
    tool_name := .undef
    input := .undef
    tool_input := .undef
    output := .undef }

/-- parseTranscript: split on newlines, keep non-blank lines, JSON-parse each,
index by position among the kept lines. -/
def parseTranscript (content : String) : List Entry :=
  let lines := ((splitOnChar newlineChar content).filter (fun l => trimStr l ≠ ""))
  lines.enum.map (fun p =>
    match jsonParse p.2 with
    | some v => entryOfJson p.1 v
    | none => freeTextEntry p.1 p.2)

/-- getNewEntries: entries whose index is at least the capture cursor. -/
def getNewEntries (entries : List Entry) (lastCapturedIndex : Int) : List Entry :=
  entries.filter (fun e => lastCapturedIndex ≤ e.index)

structure ToolRec where
  name : JSVal
  input : JSVal
  output : String
deriving Inhabited

structure Turn where
  userMessage : JSVal
  assistantMessage : String
  tools : List ToolRec
  startIndex : Int
  endIndex : Int
deriving Inhabited

/-- role = entry.role, falling back to entry.type, falling back to unknown. -/
def roleOf (e : Entry) : JSVal := jsOr e.role (jsOr e.type (.str "unknown"))

def isUserRole (v : JSVal) : Bool :=
  match v with
  | .str s => s = "user" || s = "human"
  | _ => false

def isAssistantRole (v : JSVal) : Bool :=
  match v with
  | .str s => s = "assistant"
  | _ => false

def isToolRole (v : JSVal) : Bool :=
  match v with
  | .str s => s = "tool_use" || s = "tool_result"
  | _ => false

/-- content.filter(b to b.type === text): reading .type of a null or undefined
block element throws. -/
def filterTextBlocks : List JSVal → Except JSErr (List JSVal)
  | [] => .ok []
  | b :: rest => do
    let t ← rawProp b "type"
    let tail ← filterTextBlocks rest
    match t with
    | .str s => if s = "text" then .ok (b :: tail) else .ok tail
    | _ => .ok tail

/-- extractContent: string content verbatim; array content keeps text blocks
joined by newlines; otherwise a truthy message field is returned raw (not
necessarily a string); otherwise the empty string. -/
def extractContent (e : Entry) : Except JSErr JSVal :=
  match e.content with
  | .str s => .ok (.str s)
  | .arr xs => do
    let blocks ← filterTextBlocks xs
    .ok (.str (String.intercalate "\n" (blocks.map (fun b => arrayElemStr (propTotal b "text")))))
  | _ => if e.message.truthy then .ok e.message else .ok (.str "")

/-- truncateOutput: falsy to empty, non-string JSON-stringified, cut to 500. -/
def truncateOutput (v : JSVal) : String :=
  if ¬ v.truthy then ""
  else
    match v with
    | .str s => sliceN s 500
    | v => sliceN ((jsonStringify v).getD "") 500

def newTurn (um : JSVal) (idx : Int) : Turn :=
  { userMessage := um, assistantMessage := "", tools := [], startIndex := idx, endIndex := idx }

def toolRecOf (e : Entry) : ToolRec :=
  { name := jsOr e.name (jsOr e.tool_name (.str "unknown"))
    input := jsOr e.input (jsOr e.tool_input (.obj []))
    output := truncateOutput (jsOr e.output (jsOr e.content (.str ""))) }

/-- The grouping loop of groupIntoTurns; cur is the nullable current turn. -/
def groupGo (cur : Option Turn) : List Entry → Except JSErr (List Turn)
  | [] => .ok cur.toList
  | e :: rest =>
    let role := roleOf e
    if isUserRole role then
      match extractContent e with
      | .error err => .error err
      | .ok um =>
        match groupGo (some (newTurn um e.index)) rest with
        | .error err => .error err
        | .ok tail => .ok (cur.toList ++ tail)
    else if isAssistantRole role then
      match cur with
      | some t =>
        match extractContent e with
        | .error err => .error err
        | .ok c =>
          groupGo (some { t with
            assistantMessage := t.assistantMessage ++ jsToString c ++ "\n"
            endIndex := e.index }) rest
      | none => groupGo none rest
    else if isToolRole role then
      match cur with
      | some t =>
        groupGo (some { t with tools := t.tools ++ [toolRecOf e], endIndex := e.index }) rest
      | none => groupGo none rest
    else
      match cur with
      | some t =>
        match extractContent e with
        | .error err => .error err
        | .ok c =>
          groupGo (some { t with
            assistantMessage := t.assistantMessage ++ jsToString c ++ "\n"
            endIndex := e.index }) rest
      | none => groupGo none rest

def groupIntoTurns (entries : List Entry) : Except JSErr (List Turn) :=
  groupGo none entries

-- ─── Signal-based extraction ────────────────────────────────────────

def DEFAULT_SIGNAL_KEYWORDS : List String :=
  ["remember", "important", "note",
   "architecture", "decision", "convention",
   "bug", "fix", "pattern", "refactor",
   "todo", "learned", "figured out",
   "design", "tradeoff", "prefer"]

/-- Lower-cased combined user+assistant text of a turn. -/
def turnText (t : Turn) : String :=
  toLowerStr (jsToString t.userMessage ++ " " ++ t.assistantMessage)

def findSignalTurns (turns : List Turn) (keywords : List String) : List Nat :=
  (turns.enum.filter (fun p =>
    keywords.any (fun k => strIncl (turnText p.2) (toLowerStr k)))).map (fun p => p.1)

/-- Union of the windows [idx - turnsBefore, idx] around the signal indices,
returned in ascending order as turns. -/
def getTurnsAroundSignals (turns : List Turn) (signalIndices : List Nat)
    (turnsBefore : Nat) : List Turn :=
  ((List.range turns.length).filter (fun i =>
    signalIndices.any (fun idx => idx - turnsBefore ≤ i && i ≤ idx))).map
    (fun i => turns.getD i default)

-- ─── Turn formatting ────────────────────────────────────────────────

structure FormatOptions where
  includeTools : Bool := true
  captureTools : List String := []
  signalKeywords : List String := DEFAULT_SIGNAL_KEYWORDS
  turnsBefore : Nat := 1

/-- User-message fragment of a formatted turn: trimmed, cut to 500. -/
def userFragment (s : String) : String := sliceN (trimStr s) 500

/-- Assistant-message fragment of a formatted turn: trimmed, cut to 500. -/
def assistantFragment (s : String) : String := sliceN (trimStr s) 500

/-- Tool filter by capture allow-list: t.name.toLowerCase() throws on a truthy
non-string tool name. -/
def filterToolsByName : List ToolRec → List String → Except JSErr (List ToolRec)
  | [], _ => .ok []
  | t :: rest, cts => do
    let n ← jsToLower t.name
    let keep := cts.any (fun ct => strIncl n (toLowerStr ct))
    let tail ← filterToolsByName rest cts
    if keep then .ok (t :: tail) else .ok tail

def mapCompress : List ToolRec → Except JSErr (List String)
  | [] => .ok []
  | t :: rest => do
    let c ← compressObservation t.name t.input (.str t.output)
    let tail ← mapCompress rest
    .ok (c :: tail)

/-- formatTurn: user fragment, compressed tool observations, assistant
fragment, joined by newlines. Throws when turn.userMessage is a truthy
non-string (the raw message field case) or a tool name is a truthy
non-string under a non-empty allow-list. -/
def formatTurn (turn : Turn) (opts : FormatOptions) : Except JSErr String := do
  let userParts ←
    if turn.userMessage.truthy then do
      let s ← asStr turn.userMessage
      pure ["User: " ++ userFragment s]
    else pure []
  let toolParts ←
    if opts.includeTools && turn.tools.length > 0 then do
      let relevantTools ←
        if opts.captureTools.length > 0 then filterToolsByName turn.tools opts.captureTools
        else pure turn.tools
      if relevantTools.length > 0 then do
        let compressed ← mapCompress relevantTools
        pure ["Tools: " ++ String.intercalate "; " compressed]
      else pure []
    else pure []
  let asstParts :=
    if turn.assistantMessage ≠ "" then ["Assistant: " ++ assistantFragment turn.assistantMessage]
    else []
  .ok (String.intercalate "\n" (userParts ++ toolParts ++ asstParts))

-- ─── Capture state and the main export functions ────────────────────

/-- The persisted capture-state file, reduced to the cursor it stores per
project key (absent keys read as 0 through the JavaScript || 0). -/
def CaptureState : Type := String → Int

def getLastCapturedIndex (st : CaptureState) (projectKey : String) : Int := st projectKey

def setLastCapturedIndex (st : CaptureState) (projectKey : String) (index : Int) : CaptureState :=
  fun k => if k = projectKey then index else st k

/-- Math.max over the indices of a non-empty entry list (0 for the empty list,
which the callers rule out before reaching it). -/
def maxIndexOf (entries : List Entry) : Int :=
  match entries with
  | [] => 0
  | e :: rest => rest.foldl (fun m x => max m x.index) e.index

def formatTurnList : List Turn → FormatOptions → Except JSErr (List String)
  | [], _ => .ok []
  | t :: rest, opts => do
    let f ← formatTurn t opts
    let tail ← formatTurnList rest opts
    .ok (f :: tail)

/-- Formatted turns kept for the payload: strictly longer than 20 chars. -/
def includedStrings (fmts : List String) : List String :=
  fmts.filter (fun f => f.length > 20)

/-- The joined payload before the 50-minimum check and the 4000 cap. -/
def joinedPayload (fmts : List String) : String :=
  String.intercalate "\n---\n" (includedStrings fmts)

/-- formatNewEntries (full capture mode): returns the payload (or none) and
the updated capture state. -/
def formatNewEntries (transcriptContent : String) (projectKey : String) (st : CaptureState)
    (opts : FormatOptions) : Except JSErr (Option String × CaptureState) :=
  let entries := parseTranscript transcriptContent
  if entries.length = 0 then .ok (none, st) else
  let lastIndex := getLastCapturedIndex st projectKey
  let newEntries := getNewEntries entries lastIndex
  if newEntries.length < 3 then .ok (none, st) else
  match groupIntoTurns newEntries with
  | .error e => .error e
  | .ok turns =>
    if turns.length = 0 then .ok (none, st) else
    match formatTurnList turns opts with
    | .error e => .error e
    | .ok fmts =>
      let formatted := joinedPayload fmts
      if formatted.length < 50 then .ok (none, st) else
      .ok (some (sliceN formatted 4000),
        setLastCapturedIndex st projectKey (maxIndexOf entries + 1))

/-- formatSignalEntries (signal capture mode). -/
def formatSignalEntries (transcriptContent : String) (projectKey : String) (st : CaptureState)
    (opts : FormatOptions) : Except JSErr (Option String × CaptureState) :=
  let entries := parseTranscript transcriptContent
  if entries.length = 0 then .ok (none, st) else
  let lastIndex := getLastCapturedIndex st projectKey
  let newEntries := getNewEntries entries lastIndex
  if newEntries.length < 2 then .ok (none, st) else
  match groupIntoTurns newEntries with
  | .error e => .error e
  | .ok turns =>
    if turns.length = 0 then .ok (none, st) else
    let signalIndices := findSignalTurns turns opts.signalKeywords
    if signalIndices.length = 0 then .ok (none, st) else
    let relevantTurns := getTurnsAroundSignals turns signalIndices opts.turnsBefore
    match formatTurnList relevantTurns
        { includeTools := true, captureTools := opts.captureTools
          signalKeywords := opts.signalKeywords, turnsBefore := opts.turnsBefore } with
    | .error e => .error e
    | .ok fmts =>
      let formatted := joinedPayload fmts
      if formatted.length < 50 then .ok (none, st) else
      .ok (some (sliceN formatted 4000),
        setLastCapturedIndex st projectKey (maxIndexOf entries + 1))

structure SmartResult where
  content : String
  mode : String

/-- formatTranscriptSmart: signal extraction first, full capture fallback. -/
def formatTranscriptSmart (transcriptContent : String) (projectKey : String) (st : CaptureState)
    (opts : FormatOptions) : Except JSErr (Option SmartResult × CaptureState) :=
  match formatSignalEntries transcriptContent projectKey st opts with
  | .error e => .error e
  | .ok (some s, st1) => .ok (some ⟨s, "signal"⟩, st1)
  | .ok (none, st1) =>
    match formatNewEntries transcriptContent projectKey st1 opts with
    | .error e => .error e
    | .ok (some s, st2) => .ok (some ⟨s, "full"⟩, st2)
    | .ok (none, st2) => .ok (none, st2)

-- ─── Memory classifier (context-formatter, classifyMemory) ──────────

structure MemoryRecord where
  content : JSVal
  memoryType : JSVal
  memory_type : JSVal

def decisionMarkers : List String :=
  ["decision", "chose", "instead of", "over ", "because", "rationale",
   "architecture", "design", "data flow", "system boundary"]

def warningMarkers : List String :=
  ["gotcha", "watch out", "careful", "workaround", "bug", "breaks",
   "tricky", "caveat", "must ", "always ", "never ", "warning"]

def conventionMarkers : List String :=
  ["convention", "pattern", "prefers", "uses ", "style", "format",
   "eslint", "prettier", "typescript", "framework"]

/-- classifyMemory: rule list in source order, first match wins. -/
def classifyMemory (memory : MemoryRecord) : Except JSErr String := do
  let content ← jsToLower (jsOr memory.content (.str ""))
  let mtype ← jsToLower (jsOr memory.memoryType (jsOr memory.memory_type (.str "")))
  if mtype = "task-completion" ∨ strIncl content "[task completed]" then .ok "work"
  else if mtype = "subagent-result" ∨ strIncl content "[subagent:" then .ok "discovery"
  else if decisionMarkers.any (fun m => strIncl content m) then .ok "decision"
  else if warningMarkers.any (fun m => strIncl content m) then .ok "warning"
  else if conventionMarkers.any (fun m => strIncl content m) then .ok "convention"
  else .ok "knowledge"

-- ─── Scope resolver (memorystack-client.js) ─────────────────────────

/-- Model of remote.replace of the anchored greedy pattern dot-star then colon
or slash: drops everything up to and including the last colon or slash; a
string without either separator is left unchanged. -/
def afterLastSep (s : String) : String :=
  s.toList.foldl (fun acc c => if c = ':' ∨ c = '/' then "" else acc.push c) ""

/-- Remove a trailing .git. -/
def stripDotGit (s : String) : String :=
  let cs := s.toList
  if cs.length ≥ 4 ∧ cs.drop (cs.length - 4) = ['.', 'g', 'i', 't'] then
    String.mk (cs.take (cs.length - 4))
  else s

def isScopeSafeChar (c : Char) : Bool :=
  let n := c.toNat
  (97 ≤ n && n ≤ 122) || (65 ≤ n && n ≤ 90) || (48 ≤ n && n ≤ 57) || c = '_' || c = '-'

def sanitizeScopeChars (s : String) : String :=
  mapStr (fun c => if isScopeSafeChar c then c else '_') s

/-- getProjectScopeId: the git-remote lookup is abstracted as an optional
string (none models any failure of the bounded subprocess call, which falls
back to the sanitized project name without lower-casing). -/
def getProjectScopeId (gitRemote : Option String) (projectName : String) : String :=
  match gitRemote with
  | some raw =>
    "project_" ++ toLowerStr (sanitizeScopeChars (stripDotGit (afterLastSep (trimStr raw))))
  | none => "project_" ++ sanitizeScopeChars projectName

-- ─── addMemory metadata construction (memorystack-client.js) ────────

def PERSONAL_ENTITY_CONTEXT : String :=
  "EXTRACT from this developer session:\n- Preferences: coding style, tool choices, workflow preferences\n- Learnings: new concepts learned, problems solved, debugging insights\n- Actions: what was built, refactored, or fixed\n- Decisions: personal choices about approach, tools, or patterns\n\nSKIP:\n- Generic AI explanations the developer didn\x27t act on\n- Boilerplate code or standard operations\n- File contents or raw diffs (git tracks these)\n- Routine tool outputs"

def PROJECT_ENTITY_CONTEXT : String :=
  "EXTRACT from this project session:\n- Architecture: system design, module structure, data flow\n- Conventions: naming patterns, file organization, import style\n- Decisions: why specific tech/patterns were chosen over alternatives\n- Patterns: reusable approaches, error handling, auth flow\n- Setup: environment requirements, build steps, deploy process\n- Key files: where important logic lives and why\n\nSKIP:\n- Individual code changes (git tracks these)\n- Temporary debugging steps\n- Standard library usage\n- Generic best practices not specific to this project"

/-- The raw options object passed to addMemory; undef models an absent key. -/
structure AddMemoryOpts where
  type : JSVal := .undef
  sessionId : JSVal := .undef
  scope : JSVal := .undef
  captureMode : JSVal := .undef
  memoryType : JSVal := .undef
  sourceVersion : JSVal := .undef
  extractionContext : JSVal := (.undef)

/-- Destructuring default: applies only when the field is undefined. -/
def destructureDefault (v d : JSVal) : JSVal :=
  match v with
  | .undef => d
  | v => v

/-- Strict equality test scope === the string project. -/
def isProjectScope (v : JSVal) : Bool :=
  match v with
  | .str s => s = "project"
  | _ => false

/-- The metadata object addMemory submits, as an ordered field list. The
scope ids are passed in as the values getProjectScopeId/getPersonalScopeId
would produce for this client. -/
def addMemoryMetadata (opts : AddMemoryOpts) (projectName timestamp pid perid : String) :
    List (String × JSVal) :=
  let mtype := destructureDefault opts.type (.str "session_turn")
  let scope := destructureDefault opts.scope (.str "personal")
  let base : List (String × JSVal) :=
    [("source", .str "claude-code-plugin"),
     ("source_version", jsOr opts.sourceVersion (.str "0.2.0")),
     ("project", .str projectName),
     ("timestamp", .str timestamp),
     ("scope_id", .str (if isProjectScope scope then pid else perid))]
  let m1 := if opts.sessionId.truthy then base ++ [("sessionId", opts.sessionId)] else base
  let m2 := if opts.captureMode.truthy then m1 ++ [("captureMode", opts.captureMode)] else m1
  let m3 := if mtype.truthy then m2 ++ [("type", mtype)] else m2
  if opts.extractionContext.truthy then m3 ++ [("extraction_context", opts.extractionContext)]
  else
    m3 ++ [("extraction_context",
      .str (if isProjectScope scope then PROJECT_ENTITY_CONTEXT else PERSONAL_ENTITY_CONTEXT))]

-- ─── Stdin envelope reader (src/lib/stdin.js) ───────────────────────

/-- How one invocation of readStdin settles: either the stream ended with the
accumulated data, or the five-second timer fired with no data received. A
stream that never ends after sending data never settles and is not modelled. -/
inductive StdinCase where
  | ended (data : String)
  | timedOutEmpty

def bomChar : Char := Char.ofNat 65279

/-- Strip one leading UTF-8 BOM. -/
def removeBOM (s : String) : String :=
  match s.toList with
  | c :: rest => if c = bomChar then String.mk rest else s
  | [] => s

/-- readStdin: ok models resolve, error models reject. -/
def readStdin : StdinCase → Except String JSVal
  | .ended data =>
    let cleaned := trimStr (removeBOM data)
    if cleaned = "" then .ok (.obj [])
    else
      match jsonParse cleaned with
      | some v => .ok v
      | none => .error "Failed to parse stdin"
  | .timedOutEmpty => .ok (.obj [])

-- ─── Definitions supporting the statements ──────────────────────────

/-- An entry that opens a turn: its resolved role is user or human. -/
def isUserEntry (e : Entry) : Bool := isUserRole (roleOf e)

/-- Chained coverage of turn index ranges: turnChain lo turns = some hi
exactly when the ranges are adjacent, in order, and cover [lo, hi). -/
def turnChain (lo : Int) : List Turn → Option Int
  | [] => some lo
  | t :: rest =>
    if t.startIndex = lo ∧ lo ≤ t.endIndex then turnChain (t.endIndex + 1) rest else none

/-- Capture state with no persisted cursor (every key reads as 0). -/
def zeroState : CaptureState := fun _ => 0

/-- A transcript whose first line asks to remember an architecture decision:
three JSONL entries forming one turn that signal capture accepts. -/
def sampleLog : String :=
  "\x7b\"role\":\"user\",\"content\":\"please remember this architecture decision about the database layer\"\x7d\n\x7b\"role\":\"assistant\",\"content\":\"noted, the database uses postgres because of joins\"\x7d\n\x7b\"role\":\"assistant\",\"content\":\"and the cache uses redis\"\x7d"

/-- A transcript whose user line carries only a message object, so the raw
object lands in turn.userMessage and formatTurn throws at .trim(). -/
def throwLog : String :=
  "\x7b\"role\":\"user\",\"message\":\x7b\"a\":1\x7d\x7d\n\x7b\"role\":\"assistant\",\"content\":\"remember this important long sentence\"\x7d\n\x7b\"role\":\"assistant\",\"content\":\"more text\"\x7d"

/-- A transcript whose second line overrides the positional index through the
object spread in parseTranscript. -/
def overrideLog : String :=
  "\x7b\"role\":\"user\"\x7d\n\x7b\"role\":\"user\",\"index\":5\x7d"

def sampleEntries : List Entry := parseTranscript sampleLog

def sampleTurns : List Turn :=
  match groupIntoTurns sampleEntries with
  | .ok ts => ts
  | .error _ => []

-- ─── Theorems ───────────────────────────────────────────────────────

/-- C4: the project scope resolver maps both remote spellings from the claim
to the same identifier, but that identifier is project_widgets: the anchored
greedy separator strip drops the account segment, contradicting the sanitize
comment in the source and the specified project_acme_widgets. -/
theorem c4_code_behavior :
    getProjectScopeId (some "https://github.com/acme/widgets.git") "widgets" = "project_widgets" ∧
    getProjectScopeId (some "git@github.com:acme/widgets.git") "widgets" = "project_widgets" ∧
    "project_widgets" ≠ "project_acme_widgets" :=
  ⟨by rfl, by rfl, by decide⟩

/-- C3 counterexample: a truthy non-string tool name reaches the
toLowerCase call before the protective try block, so compressObservation
raises a TypeError instead of returning a string. -/
theorem c3_counterexample :
    compressObservation (.num 42) (.obj []) (.str "output") = .error (.typeError "not a string") := by
  rfl

/-- C3 (amended): for every tool name that is a string or a falsy value, and
for all input and output values, compressObservation returns a string and
never raises: the dispatch and every tool-specific formatter run inside the
catch, and output normalization is total. -/
theorem c3_no_throw_for_string_names (toolName input output : JSVal)
    (h : (∃ s, toolName = .str s) ∨ toolName.truthy = false) :
    ∃ out, compressObservation toolName input output = .ok out := by
  obtain ⟨s0, hs⟩ : ∃ s0, jsOr toolName (.str "") = .str s0 := by
    rcases h with ⟨s, rfl⟩ | h
    · by_cases hb : (JSVal.str s).truthy
      · exact ⟨s, by simp [jsOr, hb]⟩
      · exact ⟨"", by simp [jsOr, hb]⟩
    · exact ⟨"", by simp [jsOr, h]⟩
  refine ⟨catchWith (compressDispatch (toLowerStr s0) toolName input (normalizeOutput output))
    ("Used " ++ jsToString (jsOr toolName (.str "unknown tool"))), ?_⟩
  unfold compressObservation
  rw [hs]
  rfl

/-- C3 witness: a string tool name with a malformed numeric input and a
structured output still yields a summary string. -/
theorem c3_witness :
    ∃ out, compressObservation (.str "bash") (.num 7) (.arr [.nullv]) = .ok out :=
  c3_no_throw_for_string_names _ _ _ (Or.inl ⟨"bash", rfl⟩)

/-- C8 counterexample: stream content that is not valid JSON makes readStdin
reject with a parse error instead of resolving to the empty object. -/
theorem c8_counterexample :
    jsonParse "not json" = none ∧
    readStdin (.ended "not json") = .error "Failed to parse stdin" :=
  ⟨by rfl, by rfl⟩

/-- C8 (amended): an absent or effectively empty stream (including the fixed
timeout with no data received) resolves to the empty object; content that is
not valid JSON rejects with a parse error, which the calling hooks catch. -/
theorem c8_empty_or_invalid (data : String) :
    (trimStr (removeBOM data) = "" → readStdin (.ended data) = .ok (.obj [])) ∧
    (trimStr (removeBOM data) ≠ "" ∧ jsonParse (trimStr (removeBOM data)) = none →
      readStdin (.ended data) = .error "Failed to parse stdin") ∧
    readStdin .timedOutEmpty = .ok (.obj []) := by
  refine ⟨fun h => ?_, fun h => ?_, rfl⟩
  · simp [readStdin, h]
  · simp [readStdin, h.1, h.2]

/-- C8 witness: a whitespace-only stream resolves to the empty object and a
non-JSON stream rejects. -/
theorem c8_witness :
    readStdin (.ended "  ") = .ok (.obj []) ∧
    readStdin (.ended "###") = .error "Failed to parse stdin" :=
  ⟨(c8_empty_or_invalid "  ").1 (by rfl), (c8_empty_or_invalid "###").2.1 ⟨by decide, by rfl⟩⟩

/-- C7 counterexample: a record whose content contains both gotcha and
pattern but also a decision marker classifies as decision, because the
decision rule set is evaluated before the warning rule set. -/
theorem c7_counterexample :
    strIncl "decision gotcha pattern" "gotcha" = true ∧
    strIncl "decision gotcha pattern" "pattern" = true ∧
    classifyMemory ⟨.str "decision gotcha pattern", .undef, .undef⟩ = .ok "decision" ∧
    "decision" ≠ "warning" :=
  ⟨by rfl, by rfl, by rfl, by decide⟩

/-- C7 (amended): a record whose type tag triggers neither the
task-completion rule nor the subagent rule, and whose lower-cased content
contains no task, subagent or decision marker but contains both gotcha and
pattern, classifies as warning: the rule order is deterministic and the
warning rule set is evaluated before the convention rule set. -/
theorem c7_warning_priority (mem : MemoryRecord) (c t : String)
    (hres : jsToLower (jsOr mem.content (.str "")) = .ok c)
    (htres : jsToLower (jsOr mem.memoryType (jsOr mem.memory_type (.str ""))) = .ok t)
    (h1 : t ≠ "task-completion") (h2 : strIncl c "[task completed]" = false)
    (h3 : t ≠ "subagent-result") (h4 : strIncl c "[subagent:" = false)
    (h5 : ∀ m ∈ decisionMarkers, strIncl c m = false)
    (h6 : strIncl c "gotcha" = true) (_h7 : strIncl c "pattern" = true) :
    classifyMemory mem = .ok "warning" := by
  have hd : decisionMarkers.any (fun m => strIncl c m) = false := by
    rw [List.any_eq_false]
    intro m hm
    simp [h5 m hm]
  have hw : warningMarkers.any (fun m => strIncl c m) = true := by
    rw [List.any_eq_true]
    exact ⟨"gotcha", by decide, by simp [h6]⟩
  unfold classifyMemory
  rw [hres, htres]
  simp [Bind.bind, Except.bind, h1, h2, h3, h4, hd, hw]

/-- C7 witness: content containing exactly the two markers classifies as
warning. -/
theorem c7_witness :
    classifyMemory ⟨.str "gotcha pattern", .undef, .undef⟩ = .ok "warning" :=
  c7_warning_priority _ "gotcha pattern" "" (by rfl) (by rfl) (by decide) (by rfl)
    (by decide) (by rfl) (by decide) (by rfl) (by rfl)

/-- C9: the metadata submitted by addMemory carries exactly one scope_id
field; it holds the project identifier exactly when the resolved scope option
is the string project (strict equality), and the personal identifier for
every other scope value, including the documented both. -/
theorem c9_scope_id (opts : AddMemoryOpts) (pn ts pid perid : String) :
    ((addMemoryMetadata opts pn ts pid perid).filter
        (fun p => p.1 = "scope_id")).map Prod.snd =
      [.str (if isProjectScope (destructureDefault opts.scope (.str "personal"))
        then pid else perid)] ∧
    isProjectScope (.str "both") = false ∧
    ((addMemoryMetadata { scope := .str "both" } pn ts pid perid).filter
        (fun p => p.1 = "scope_id")).map Prod.snd = [.str perid] := by
  refine ⟨?_, by decide, ?_⟩
  · unfold addMemoryMetadata
    by_cases h1 : (AddMemoryOpts.sessionId opts).truthy = true <;>
      by_cases h2 : (AddMemoryOpts.captureMode opts).truthy = true <;>
        by_cases h3 : (destructureDefault opts.type (JSVal.str "session_turn")).truthy = true <;>
          by_cases h4 : (AddMemoryOpts.extractionContext opts).truthy = true <;>
            simp [h1, h2, h3, h4, List.filter_append, List.filter]
  · unfold addMemoryMetadata
    simp [List.filter_append, List.filter, destructureDefault, isProjectScope]

-- ─── Supporting lemmas about the capture pipeline ───────────────────

theorem mem_getNewEntries {entries : List Entry} {c : Int} {e : Entry}
    (h : e ∈ getNewEntries entries c) : c ≤ e.index := by
  have := List.of_mem_filter h
  simpa using this

theorem foldl_maxidx_init (l : List Entry) (a : Int) :
    a ≤ l.foldl (fun m x => max m x.index) a := by
  induction l generalizing a with
  | nil => exact le_refl a
  | cons e rest ih =>
    calc a ≤ max a e.index := le_max_left _ _
    _ ≤ rest.foldl (fun m x => max m x.index) (max a e.index) := ih _

theorem foldl_maxidx_mem (l : List Entry) (x : Entry) :
    x ∈ l → ∀ a : Int, x.index ≤ l.foldl (fun m y => max m y.index) a := by
  induction l with
  | nil => intro h; cases h
  | cons e rest ih =>
    intro h a
    rcases List.mem_cons.mp h with rfl | hx
    · calc x.index ≤ max a x.index := le_max_right _ _
      _ ≤ rest.foldl (fun m y => max m y.index) (max a x.index) := foldl_maxidx_init _ _
    · exact ih hx _

theorem le_maxIndexOf {entries : List Entry} {e : Entry} (h : e ∈ entries) :
    e.index ≤ maxIndexOf entries := by
  cases entries with
  | nil => cases h
  | cons a rest =>
    unfold maxIndexOf
    rcases List.mem_cons.mp h with rfl | hx
    · exact foldl_maxidx_init _ _
    · exact foldl_maxidx_mem _ _ hx _

theorem cursor_le_max {entries : List Entry} {c : Int}
    (h : 0 < (getNewEntries entries c).length) : c ≤ maxIndexOf entries := by
  obtain ⟨e, he⟩ := List.exists_mem_of_length_pos h
  have h1 := mem_getNewEntries he
  have h2 := le_maxIndexOf (List.mem_of_mem_filter he)
  omega

theorem getNewEntries_stale (entries : List Entry) :
    getNewEntries entries (maxIndexOf entries + 1) = [] := by
  apply List.filter_eq_nil_iff.mpr
  intro e he
  have := le_maxIndexOf he
  simp only [decide_eq_true_eq]
  omega

theorem fne_some_shape {content key st opts res st2}
    (h : formatNewEntries content key st opts = .ok (some res, st2)) :
    ∃ turns fmts,
      groupIntoTurns (getNewEntries (parseTranscript content) (getLastCapturedIndex st key)) =
        .ok turns ∧
      formatTurnList turns opts = .ok fmts ∧
      3 ≤ (getNewEntries (parseTranscript content) (getLastCapturedIndex st key)).length ∧
      50 ≤ (joinedPayload fmts).length ∧
      res = sliceN (joinedPayload fmts) 4000 ∧
      st2 = setLastCapturedIndex st key (maxIndexOf (parseTranscript content) + 1) := by
  unfold formatNewEntries at h
  dsimp only at h
  split at h
  · simp at h
  split at h
  · simp at h
  split at h
  · simp at h
  next turns heq =>
    split at h
    · simp at h
    split at h
    · simp at h
    next fmts heqf =>
      split at h
      · simp at h
      next hlen =>
        rw [Except.ok.injEq, Prod.mk.injEq, Option.some.injEq] at h
        exact ⟨turns, fmts, heq, heqf, by omega, by omega, h.1.symm, h.2.symm⟩

theorem fne_none_state {content key st opts st2}
    (h : formatNewEntries content key st opts = .ok (none, st2)) : st2 = st := by
  unfold formatNewEntries at h
  dsimp only at h
  split at h
  · simp at h; exact h.symm
  split at h
  · simp at h; exact h.symm
  split at h
  · simp at h
  split at h
  · simp at h; exact h.symm
  split at h
  · simp at h
  split at h
  · simp at h; exact h.symm
  · simp at h

theorem fse_some_shape {content key st opts res st2}
    (h : formatSignalEntries content key st opts = .ok (some res, st2)) :
    ∃ turns fmts,
      groupIntoTurns (getNewEntries (parseTranscript content) (getLastCapturedIndex st key)) =
        .ok turns ∧
      formatTurnList
        (getTurnsAroundSignals turns (findSignalTurns turns opts.signalKeywords) opts.turnsBefore)
        { includeTools := true, captureTools := opts.captureTools
          signalKeywords := opts.signalKeywords, turnsBefore := opts.turnsBefore } = .ok fmts ∧
      2 ≤ (getNewEntries (parseTranscript content) (getLastCapturedIndex st key)).length ∧
      0 < (findSignalTurns turns opts.signalKeywords).length ∧
      50 ≤ (joinedPayload fmts).length ∧
      res = sliceN (joinedPayload fmts) 4000 ∧
      st2 = setLastCapturedIndex st key (maxIndexOf (parseTranscript content) + 1) := by
  unfold formatSignalEntries at h
  dsimp only at h
  split at h
  · simp at h
  split at h
  · simp at h
  split at h
  · simp at h
  next turns heq =>
    split at h
    · simp at h
    split at h
    · simp at h
    next hsig =>
      split at h
      · simp at h
      next fmts heqf =>
        split at h
        · simp at h
        next hlen =>
          rw [Except.ok.injEq, Prod.mk.injEq, Option.some.injEq] at h
          exact ⟨turns, fmts, heq, heqf, by omega, by omega, by omega, h.1.symm, h.2.symm⟩

theorem fse_none_state {content key st opts st2}
    (h : formatSignalEntries content key st opts = .ok (none, st2)) : st2 = st := by
  unfold formatSignalEntries at h
  dsimp only at h
  split at h
  · simp at h; exact h.symm
  split at h
  · simp at h; exact h.symm
  split at h
  · simp at h
  split at h
  · simp at h; exact h.symm
  split at h
  · simp at h; exact h.symm
  split at h
  · simp at h
  split at h
  · simp at h; exact h.symm
  · simp at h

theorem fne_stale {content key st opts}
    (h : getNewEntries (parseTranscript content) (getLastCapturedIndex st key) = []) :
    formatNewEntries content key st opts = .ok (none, st) := by
  unfold formatNewEntries
  dsimp only
  split
  · rfl
  rw [h]
  simp

theorem fse_stale {content key st opts}
    (h : getNewEntries (parseTranscript content) (getLastCapturedIndex st key) = []) :
    formatSignalEntries content key st opts = .ok (none, st) := by
  unfold formatSignalEntries
  dsimp only
  split
  · rfl
  rw [h]
  simp

theorem sliceN_length_le (s : String) (n : Nat) : (sliceN s n).length ≤ n := by
  have h : (sliceN s n).length = (s.toList.take n).length := rfl
  rw [h, List.length_take]
  exact min_le_left _ _

theorem smart_shape {content key st opts r st2}
    (h : formatTranscriptSmart content key st opts = .ok (some r, st2)) :
    formatSignalEntries content key st opts = .ok (some r.content, st2) ∨
    (formatSignalEntries content key st opts = .ok (none, st) ∧
      formatNewEntries content key st opts = .ok (some r.content, st2)) := by
  unfold formatTranscriptSmart at h
  split at h
  · exact Except.noConfusion h
  case _ s st1 heq =>
    rw [Except.ok.injEq, Prod.mk.injEq, Option.some.injEq] at h
    left
    rw [heq, ← h.1, ← h.2]
  case _ st1 heq =>
    have hst : st1 = st := fse_none_state heq
    subst hst
    split at h
    · exact Except.noConfusion h
    case _ s st2x heq2 =>
      rw [Except.ok.injEq, Prod.mk.injEq, Option.some.injEq] at h
      right
      rw [← h.1, ← h.2]
      exact ⟨heq, heq2⟩
    case _ st2x heq2 =>
      rw [Except.ok.injEq, Prod.mk.injEq] at h
      exact absurd h.1 (by simp)

/-- C2: after a successful (non-null) capture in either mode, the cursor for
the project key equals one past the maximum index of the entire parsed log;
each attempt leaves the cursor non-decreasing; and the new-entries set never
contains an event below the cursor. -/
theorem c2_cursor_invariants :
    (∀ content key st opts res st2,
      formatNewEntries content key st opts = .ok (some res, st2) →
        st2 key = maxIndexOf (parseTranscript content) + 1) ∧
    (∀ content key st opts res st2,
      formatSignalEntries content key st opts = .ok (some res, st2) →
        st2 key = maxIndexOf (parseTranscript content) + 1) ∧
    (∀ content key st opts out st2,
      formatNewEntries content key st opts = .ok (out, st2) →
        st key ≤ st2 key) ∧
    (∀ content key st opts out st2,
      formatSignalEntries content key st opts = .ok (out, st2) →
        st key ≤ st2 key) ∧
    (∀ (entries : List Entry) (c : Int) (e : Entry),
      e ∈ getNewEntries entries c → c ≤ e.index) := by
  refine ⟨?_, ?_, ?_, ?_, fun entries c e h => mem_getNewEntries h⟩
  · intro content key st opts res st2 h
    obtain ⟨_, _, _, _, _, _, _, hst⟩ := fne_some_shape h
    subst hst
    simp [setLastCapturedIndex]
  · intro content key st opts res st2 h
    obtain ⟨_, _, _, _, _, _, _, _, hst⟩ := fse_some_shape h
    subst hst
    simp [setLastCapturedIndex]
  · intro content key st opts out st2 h
    cases out with
    | none => rw [fne_none_state h]
    | some res =>
      obtain ⟨_, _, _, _, h3, _, _, hst⟩ := fne_some_shape h
      have hc : getLastCapturedIndex st key ≤ maxIndexOf (parseTranscript content) :=
        cursor_le_max (by omega)
      simp only [getLastCapturedIndex] at hc
      subst hst
      simp [setLastCapturedIndex]
      omega
  · intro content key st opts out st2 h
    cases out with
    | none => rw [fse_none_state h]
    | some res =>
      obtain ⟨_, _, _, _, h2, _, _, _, hst⟩ := fse_some_shape h
      have hc : getLastCapturedIndex st key ≤ maxIndexOf (parseTranscript content) :=
        cursor_le_max (by omega)
      simp only [getLastCapturedIndex] at hc
      subst hst
      simp [setLastCapturedIndex]
      omega

/-- C2 witness: a successful full capture on a concrete three-line log sets
the cursor to one past the maximum parsed index. -/
theorem c2_witness :
    ∃ res st2, formatNewEntries sampleLog "k" zeroState {} = .ok (some res, st2) ∧
      st2 "k" = maxIndexOf (parseTranscript sampleLog) + 1 :=
  ⟨_, _, by rfl, c2_cursor_invariants.1 sampleLog "k" zeroState {} _ _ (by rfl)⟩

/-- C5 counterexample: on a log whose user entry carries a raw message
object, formatTurn throws inside the first smart invocation before any state
is persisted, so a second invocation evaluates identically and also raises
instead of yielding the null nothing-to-capture result. -/
theorem c5_counterexample :
    formatTranscriptSmart throwLog "k" zeroState {} = .error (.typeError "not a string") := by
  rfl

/-- C6: every non-null payload from full mode, signal mode, or the smart
composition is at most 4000 characters, and the per-turn user and assistant
fragments are each at most 500 characters before the parts are joined. -/
theorem c6_truncation_bounds :
    (∀ content key st opts res st2,
      formatNewEntries content key st opts = .ok (some res, st2) → res.length ≤ 4000) ∧
    (∀ content key st opts res st2,
      formatSignalEntries content key st opts = .ok (some res, st2) → res.length ≤ 4000) ∧
    (∀ content key st opts r st2,
      formatTranscriptSmart content key st opts = .ok (some r, st2) →
        r.content.length ≤ 4000) ∧
    (∀ s : String, (userFragment s).length ≤ 500) ∧
    (∀ s : String, (assistantFragment s).length ≤ 500) := by
  have hfull : ∀ content key st opts res st2,
      formatNewEntries content key st opts = Except.ok (some res, st2) → res.length ≤ 4000 := by
    intro content key st opts res st2 h
    obtain ⟨_, _, _, _, _, _, hres, _⟩ := fne_some_shape h
    subst hres
    exact sliceN_length_le _ _
  have hsig : ∀ content key st opts res st2,
      formatSignalEntries content key st opts = Except.ok (some res, st2) → res.length ≤ 4000 := by
    intro content key st opts res st2 h
    obtain ⟨_, _, _, _, _, _, _, hres, _⟩ := fse_some_shape h
    subst hres
    exact sliceN_length_le _ _
  refine ⟨hfull, hsig, ?_, fun s => sliceN_length_le _ _, fun s => sliceN_length_le _ _⟩
  intro content key st opts r st2 h
  rcases smart_shape h with hs | ⟨_, hf⟩
  · exact hsig _ _ _ _ _ _ hs
  · exact hfull _ _ _ _ _ _ hf

/-- C6 witness: a concrete successful capture obeys the 4000 cap, and a
concrete long message is cut to 500. -/
theorem c6_witness :
    (∃ res st2, formatNewEntries sampleLog "k" zeroState {} = .ok (some res, st2) ∧
      res.length ≤ 4000) ∧
    (userFragment "hello").length ≤ 500 :=
  ⟨⟨_, _, by rfl, c6_truncation_bounds.1 sampleLog "k" zeroState {} _ _ (by rfl)⟩,
    c6_truncation_bounds.2.2.2.1 "hello"⟩

/-- C5 (amended): whenever the first smart-capture invocation completes
without a JavaScript exception, invoking it again on the unchanged log and
the state it left behind yields the null nothing-to-capture result. -/
theorem c5_second_call_null (content key : String) (st : CaptureState) (opts : FormatOptions)
    (r1 : Option SmartResult) (st1 : CaptureState)
    (h : formatTranscriptSmart content key st opts = .ok (r1, st1)) :
    formatTranscriptSmart content key st1 opts = .ok (none, st1) := by
  cases r1 with
  | some r =>
    have hset : st1 = setLastCapturedIndex st key (maxIndexOf (parseTranscript content) + 1) := by
      rcases smart_shape h with hs | ⟨_, hf⟩
      · obtain ⟨_, _, _, _, _, _, _, _, hst⟩ := fse_some_shape hs
        exact hst
      · obtain ⟨_, _, _, _, _, _, _, hst⟩ := fne_some_shape hf
        exact hst
    have hstale : getNewEntries (parseTranscript content) (getLastCapturedIndex st1 key) = [] := by
      have : getLastCapturedIndex st1 key = maxIndexOf (parseTranscript content) + 1 := by
        rw [hset]
        simp [getLastCapturedIndex, setLastCapturedIndex]
      rw [this]
      exact getNewEntries_stale _
    unfold formatTranscriptSmart
    rw [fse_stale hstale]
    dsimp only
    rw [fne_stale hstale]
  | none =>
    unfold formatTranscriptSmart at h
    split at h
    · exact Except.noConfusion h
    case _ s stx heq =>
      rw [Except.ok.injEq, Prod.mk.injEq] at h
      exact absurd h.1 (by simp)
    case _ stx heq =>
      have hstx : stx = st := fse_none_state heq
      subst hstx
      split at h
      · exact Except.noConfusion h
      case _ s st2x heq2 =>
        rw [Except.ok.injEq, Prod.mk.injEq] at h
        exact absurd h.1 (by simp)
      case _ st2x heq2 =>
        rw [Except.ok.injEq, Prod.mk.injEq] at h
        have h2x : st2x = stx := fne_none_state heq2
        rw [← h.2, h2x]
        unfold formatTranscriptSmart
        rw [heq]
        dsimp only
        rw [heq2, h2x]

/-- C5 witness: on a concrete log the first smart capture succeeds and the
second invocation returns the null result. -/
theorem c5_witness :
    ∃ r1 st1, formatTranscriptSmart sampleLog "k" zeroState {} = .ok (r1, st1) ∧
      formatTranscriptSmart sampleLog "k" st1 {} = .ok (none, st1) :=
  ⟨_, _, by rfl, c5_second_call_null sampleLog "k" zeroState {} _ _ (by rfl)⟩

/-- C10: a formatted turn enters the joined payload exactly when it is
strictly longer than 20 characters, and every non-null payload is the
filtered join, cut to 4000 only after the 50-character minimum was tested on
the filtered join itself. -/
theorem c10_turn_filter :
    (∀ (fmts : List String) (f : String), f ∈ fmts →
      (f ∈ includedStrings fmts ↔ 20 < f.length)) ∧
    (∀ content key st opts res st2,
      formatNewEntries content key st opts = .ok (some res, st2) →
      ∃ turns fmts,
        groupIntoTurns (getNewEntries (parseTranscript content) (getLastCapturedIndex st key)) =
          .ok turns ∧
        formatTurnList turns opts = .ok fmts ∧
        50 ≤ (joinedPayload fmts).length ∧
        res = sliceN (joinedPayload fmts) 4000) ∧
    (∀ content key st opts res st2,
      formatSignalEntries content key st opts = .ok (some res, st2) →
      ∃ turns fmts,
        groupIntoTurns (getNewEntries (parseTranscript content) (getLastCapturedIndex st key)) =
          .ok turns ∧
        formatTurnList
          (getTurnsAroundSignals turns (findSignalTurns turns opts.signalKeywords)
            opts.turnsBefore)
          { includeTools := true, captureTools := opts.captureTools
            signalKeywords := opts.signalKeywords, turnsBefore := opts.turnsBefore } = .ok fmts ∧
        50 ≤ (joinedPayload fmts).length ∧
        res = sliceN (joinedPayload fmts) 4000) := by
  refine ⟨?_, ?_, ?_⟩
  · intro fmts f hf
    simp [includedStrings, List.mem_filter, hf]
  · intro content key st opts res st2 h
    obtain ⟨turns, fmts, h1, h2, _, h4, h5, _⟩ := fne_some_shape h
    exact ⟨turns, fmts, h1, h2, h4, h5⟩
  · intro content key st opts res st2 h
    obtain ⟨turns, fmts, h1, h2, _, _, h5, h6, _⟩ := fse_some_shape h
    exact ⟨turns, fmts, h1, h2, h5, h6⟩

/-- C10 witness: a 21-character formatted string is kept while a shorter one
is dropped, and a concrete capture produces the filtered join. -/
theorem c10_witness :
    ("a23456789012345678901" ∈ includedStrings ["short", "a23456789012345678901"] ↔
      20 < ("a23456789012345678901" : String).length) ∧
    ∃ turns fmts,
      groupIntoTurns (getNewEntries (parseTranscript sampleLog)
        (getLastCapturedIndex zeroState "k")) = .ok turns ∧
      formatTurnList turns {} = .ok fmts ∧
      50 ≤ (joinedPayload fmts).length ∧
      sliceN (joinedPayload fmts) 4000 = sliceN (joinedPayload fmts) 4000 := by
  constructor
  · exact c10_turn_filter.1 _ _ (by simp)
  · obtain ⟨turns, fmts, h1, h2, h3, _⟩ :=
      c10_turn_filter.2.1 sampleLog "k" zeroState {} _ _ (by rfl)
    exact ⟨turns, fmts, h1, h2, h3, rfl⟩

theorem groupGo_nil (cur : Option Turn) : groupGo cur [] = .ok cur.toList := rfl

theorem groupGo_cons (cur : Option Turn) (e : Entry) (rest : List Entry) :
    groupGo cur (e :: rest) =
      (if isUserRole (roleOf e) then
        match extractContent e with
        | .error err => .error err
        | .ok um =>
          match groupGo (some (newTurn um e.index)) rest with
          | .error err => .error err
          | .ok tail => .ok (cur.toList ++ tail)
      else if isAssistantRole (roleOf e) then
        match cur with
        | some t =>
          match extractContent e with
          | .error err => .error err
          | .ok c =>
            groupGo (some { t with
              assistantMessage := t.assistantMessage ++ jsToString c ++ "\n"
              endIndex := e.index }) rest
        | none => groupGo none rest
      else if isToolRole (roleOf e) then
        match cur with
        | some t =>
          groupGo (some { t with tools := t.tools ++ [toolRecOf e], endIndex := e.index }) rest
        | none => groupGo none rest
      else
        match cur with
        | some t =>
          match extractContent e with
          | .error err => .error err
          | .ok c =>
            groupGo (some { t with
              assistantMessage := t.assistantMessage ++ jsToString c ++ "\n"
              endIndex := e.index }) rest
        | none => groupGo none rest) := rfl

-- ─── Turn partitioning (C1) ─────────────────────────────────────────

theorem groupGo_chain_some (entries : List Entry) :
    ∀ (base : Int) (t : Turn) (turns : List Turn),
      (∀ k (hk : k < entries.length), (entries.get ⟨k, hk⟩).index = base + k) →
      t.startIndex ≤ t.endIndex → t.endIndex + 1 = base →
      groupGo (some t) entries = .ok turns →
      turnChain t.startIndex turns = some (base + entries.length) := by
  induction entries with
  | nil =>
    intro base t turns _ hle hend h
    rw [groupGo_nil, Except.ok.injEq] at h
    subst h
    show turnChain t.startIndex [t] = _
    unfold turnChain
    rw [if_pos ⟨rfl, hle⟩]
    unfold turnChain
    simp only [Option.some.injEq, List.length_nil]
    push_cast
    omega
  | cons e rest ih =>
    intro base t turns Hidx hle hend h
    have he0 : e.index = base := by
      have h0 := Hidx 0 (by simp)
      simpa using h0
    have Hrest : ∀ k (hk : k < rest.length), (rest.get ⟨k, hk⟩).index = (base + 1) + k := by
      intro k hk
      have h2 := Hidx (k + 1) (by simpa using Nat.succ_lt_succ hk)
      have h3 : (e :: rest).get ⟨k + 1, by simpa using Nat.succ_lt_succ hk⟩ =
          rest.get ⟨k, hk⟩ := rfl
      rw [h3] at h2
      rw [h2]
      push_cast
      ring
    rw [groupGo_cons] at h
    dsimp only at h
    split at h
    · -- user-role entry: close the running turn, open a new one
      split at h
      · exact Except.noConfusion h
      case _ um heqc =>
        split at h
        · exact Except.noConfusion h
        case _ tail heqg =>
          rw [Except.ok.injEq] at h
          subst h
          show turnChain t.startIndex (t :: tail) = _
          unfold turnChain
          rw [if_pos ⟨rfl, hle⟩]
          have hch : turnChain (newTurn um e.index).startIndex tail =
              some ((base + 1) + rest.length) :=
            ih (base + 1) (newTurn um e.index) tail Hrest (by simp [newTurn])
              (by simp [newTurn, he0]) heqg
          simp only [newTurn] at hch
          rw [he0] at hch
          rw [hend, hch]
          simp only [Option.some.injEq, List.length_cons]
          push_cast
          ring
    · -- non-user entries extend the running turn
      have hfinish : ∀ t2 : Turn, groupGo (some t2) rest = .ok turns →
          t2.startIndex = t.startIndex → t2.endIndex = e.index →
          turnChain t.startIndex turns = some (base + (e :: rest).length) := by
        intro t2 hgo hst hen
        have hch : turnChain t2.startIndex turns = some ((base + 1) + rest.length) :=
          ih (base + 1) t2 turns Hrest (by rw [hst, hen, he0]; omega)
            (by rw [hen, he0]) hgo
        rw [hst] at hch
        rw [hch]
        simp only [Option.some.injEq, List.length_cons]
        push_cast
        ring
      split at h
      · -- assistant role
        split at h
        · exact Except.noConfusion h
        case _ c heqc =>
          exact hfinish _ h rfl rfl
      split at h
      · -- tool role
        exact hfinish _ h rfl rfl
      · -- unknown role
        split at h
        · exact Except.noConfusion h
        case _ c heqc =>
          exact hfinish _ h rfl rfl

theorem groupGo_chain_none (entries : List Entry) :
    ∀ (base : Int) (turns : List Turn),
      (∀ k (hk : k < entries.length), (entries.get ⟨k, hk⟩).index = base + k) →
      groupGo none entries = .ok turns →
      ((∀ e ∈ entries, isUserEntry e = false) → turns = []) ∧
      (∀ p (hp : p < entries.length),
        (∀ k (hk : k < p), isUserEntry (entries.get ⟨k, hk.trans hp⟩) = false) →
        isUserEntry (entries.get ⟨p, hp⟩) = true →
        turnChain (base + p) turns = some (base + entries.length)) := by
  induction entries with
  | nil =>
    intro base turns _ h
    rw [groupGo_nil, Except.ok.injEq] at h
    subst h
    exact ⟨fun _ => rfl, fun p hp => absurd hp (by simp)⟩
  | cons e rest ih =>
    intro base turns Hidx h
    have he0 : e.index = base := by
      have h0 := Hidx 0 (by simp)
      simpa using h0
    have Hrest : ∀ k (hk : k < rest.length), (rest.get ⟨k, hk⟩).index = (base + 1) + k := by
      intro k hk
      have h2 := Hidx (k + 1) (by simpa using Nat.succ_lt_succ hk)
      have h3 : (e :: rest).get ⟨k + 1, by simpa using Nat.succ_lt_succ hk⟩ =
          rest.get ⟨k, hk⟩ := rfl
      rw [h3] at h2
      rw [h2]
      push_cast
      ring
    rw [groupGo_cons] at h
    dsimp only at h
    by_cases hu : isUserRole (roleOf e) = true
    · rw [if_pos hu] at h
      split at h
      · exact Except.noConfusion h
      case _ um heqc =>
        split at h
        · exact Except.noConfusion h
        case _ tail heqg =>
          rw [Except.ok.injEq] at h
          subst h
          constructor
          · intro hall
            have := hall e (by simp)
            rw [isUserEntry, hu] at this
            exact Bool.noConfusion this
          · intro p hp hpre hpu
            cases p with
            | zero =>
              have hch : turnChain (newTurn um e.index).startIndex tail =
                  some ((base + 1) + rest.length) :=
                groupGo_chain_some rest (base + 1) (newTurn um e.index) tail Hrest
                  (by simp [newTurn]) (by simp [newTurn, he0]) heqg
              simp only [newTurn] at hch
              rw [he0] at hch
              show turnChain (base + ((0 : Nat) : Int)) tail = some (base + ((e :: rest).length : Int))
              rw [show base + ((0 : Nat) : Int) = base by push_cast; ring]
              rw [hch]
              simp only [Option.some.injEq, List.length_cons]
              push_cast
              ring
            | succ p' =>
              have h0 := hpre 0 (Nat.succ_pos p')
              have hget : (e :: rest).get ⟨0, Nat.lt_of_lt_of_le (Nat.succ_pos p') (le_of_lt hp)⟩ = e := rfl
              rw [isUserEntry] at h0
              simp only [List.get] at h0
              rw [hu] at h0
              exact Bool.noConfusion h0
    · rw [if_neg hu] at h
      have hrec : groupGo none rest = .ok turns := by
        split at h
        · exact h
        split at h
        · exact h
        · exact h
      obtain ⟨ih1, ih2⟩ := ih (base + 1) turns Hrest hrec
      constructor
      · intro hall
        exact ih1 (fun x hx => hall x (List.mem_cons_of_mem _ hx))
      · intro p hp hpre hpu
        cases p with
        | zero =>
          rw [isUserEntry] at hpu
          simp only [List.get] at hpu
          rw [hpu] at hu
          exact absurd rfl hu
        | succ p' =>
          have hp' : p' < rest.length := by simpa using hp
          have hpre' : ∀ k (hk : k < p'), isUserEntry (rest.get ⟨k, hk.trans hp'⟩) = false := by
            intro k hk
            have hx := hpre (k + 1) (Nat.succ_lt_succ hk)
            simpa using hx
          have hpu' : isUserEntry (rest.get ⟨p', hp'⟩) = true := by simpa using hpu
          have hch := ih2 p' hp' hpre' hpu'
          rw [show base + ((p' + 1 : Nat) : Int) = (base + 1) + (p' : Int) by push_cast; ring]
          rw [hch]
          simp only [Option.some.injEq, List.length_cons]
          push_cast
          ring

theorem turnChain_bounds (turns : List Turn) :
    ∀ (lo hi : Int), turnChain lo turns = some hi →
      lo ≤ hi ∧ ∀ t ∈ turns, lo ≤ t.startIndex ∧ t.startIndex ≤ t.endIndex ∧ t.endIndex < hi := by
  induction turns with
  | nil =>
    intro lo hi h
    unfold turnChain at h
    rw [Option.some.injEq] at h
    subst h
    exact ⟨le_refl _, by simp⟩
  | cons t rest ih =>
    intro lo hi h
    unfold turnChain at h
    split at h
    case _ hc =>
      obtain ⟨h1, h2⟩ := hc
      obtain ⟨hle, hall⟩ := ih (t.endIndex + 1) hi h
      refine ⟨by omega, ?_⟩
      intro x hx
      rcases List.mem_cons.mp hx with rfl | hx2
      · exact ⟨by omega, by omega, by omega⟩
      · have h3 := hall x hx2
        exact ⟨by omega, h3.2.1, h3.2.2⟩
    · exact Option.noConfusion h

theorem turnChain_cover (turns : List Turn) :
    ∀ (lo hi : Int), turnChain lo turns = some hi →
      ∀ j : Int, lo ≤ j → j < hi →
        ∃! i : Fin turns.length, (turns.get i).startIndex ≤ j ∧ j ≤ (turns.get i).endIndex := by
  induction turns with
  | nil =>
    intro lo hi h j h1 h2
    unfold turnChain at h
    rw [Option.some.injEq] at h
    omega
  | cons t rest ih =>
    intro lo hi h j h1 h2
    unfold turnChain at h
    split at h
    case _ hc =>
      by_cases hj : j ≤ t.endIndex
      · refine ⟨⟨0, by simp⟩, ⟨(by omega : t.startIndex ≤ j), hj⟩, ?_⟩
        rintro ⟨i, hilen⟩ ⟨ha, hb⟩
        cases i with
        | zero => rfl
        | succ i2 =>
          have hilen2 : i2 < rest.length := by simpa using hilen
          have hmem : rest.get ⟨i2, hilen2⟩ ∈ rest := List.get_mem _ _ _
          have hbd := (turnChain_bounds rest (t.endIndex + 1) hi h).2 _ hmem
          have ha2 : (rest.get ⟨i2, hilen2⟩).startIndex ≤ j := ha
          omega
      · obtain ⟨⟨i, hilen⟩, hcond, huniq⟩ := ih (t.endIndex + 1) hi h j (by omega) h2
        refine ⟨⟨i + 1, by simpa using Nat.succ_lt_succ hilen⟩, hcond, ?_⟩
        rintro ⟨i2, hilen2⟩ ⟨ha, hb⟩
        cases i2 with
        | zero =>
          have hb2 : j ≤ t.endIndex := hb
          omega
        | succ i3 =>
          have hilen3 : i3 < rest.length := by simpa using hilen2
          have := huniq ⟨i3, hilen3⟩ ⟨ha, hb⟩
          rw [Fin.mk.injEq] at this ⊢
          omega
    · exact Option.noConfusion h

theorem turnChain_adjacent (turns : List Turn) :
    ∀ (lo hi : Int), turnChain lo turns = some hi →
      ∀ i (h2 : i + 1 < turns.length),
        (turns.get ⟨i + 1, h2⟩).startIndex =
          (turns.get ⟨i, Nat.lt_of_succ_lt h2⟩).endIndex + 1 := by
  induction turns with
  | nil =>
    intro lo hi h i h2
    simp at h2
  | cons t rest ih =>
    intro lo hi h i h2
    unfold turnChain at h
    split at h
    case _ hc =>
      cases i with
      | zero =>
        cases rest with
        | nil => simp at h2
        | cons t2 rest2 =>
          unfold turnChain at h
          split at h
          case _ hc2 => exact hc2.1
          · exact Option.noConfusion h
      | succ i2 =>
        exact ih (t.endIndex + 1) hi h i2 (by simpa using h2)
    · exact Option.noConfusion h

/-- C1 (amended): whenever every parsed entry's index equals its position in
the parse order (which holds for every log in which no JSON line carries an
own index field), the turns produced by the turn grouper partition the
events: each index from the first user-role entry to the end of the stream
lies in exactly one turn range, indices before the first user-role entry lie
in no turn range, consecutive turn ranges are adjacent, and a stream with no
user-role entry produces no turns. -/
theorem c1_partition (entries : List Entry) (turns : List Turn)
    (Hidx : ∀ k (hk : k < entries.length), (entries.get ⟨k, hk⟩).index = (k : Int))
    (Hok : groupIntoTurns entries = .ok turns) :
    ((∀ e ∈ entries, isUserEntry e = false) → turns = []) ∧
    (∀ p (hp : p < entries.length),
      (∀ k (hk : k < p), isUserEntry (entries.get ⟨k, hk.trans hp⟩) = false) →
      isUserEntry (entries.get ⟨p, hp⟩) = true →
      (∀ j : Nat, p ≤ j → j < entries.length →
        ∃! i : Fin turns.length,
          (turns.get i).startIndex ≤ (j : Int) ∧ (j : Int) ≤ (turns.get i).endIndex) ∧
      (∀ j : Nat, j < p → ∀ t ∈ turns,
        ¬ (t.startIndex ≤ (j : Int) ∧ (j : Int) ≤ t.endIndex)) ∧
      (∀ i (h2 : i + 1 < turns.length),
        (turns.get ⟨i + 1, h2⟩).startIndex =
          (turns.get ⟨i, Nat.lt_of_succ_lt h2⟩).endIndex + 1)) := by
  have H := groupGo_chain_none entries 0 turns
    (by intro k hk; rw [Hidx k hk]; ring) Hok
  refine ⟨H.1, ?_⟩
  intro p hp hpre hpu
  have hchain := H.2 p hp hpre hpu
  refine ⟨?_, ?_, turnChain_adjacent turns _ _ hchain⟩
  · intro j hj1 hj2
    have hj1i : ((0 : Int) + p) ≤ (j : Int) := by omega
    have hj2i : (j : Int) < (0 : Int) + entries.length := by omega
    exact turnChain_cover turns _ _ hchain j hj1i hj2i
  · intro j hj t ht hcontra
    have hb := (turnChain_bounds turns _ _ hchain).2 t ht
    have hji : (j : Int) < (p : Int) := by exact_mod_cast hj
    omega

/-- C1 counterexample: a parsed log line can override the positional index
through the object spread, after which the produced turn ranges are no
longer adjacent: the transcript yields ranges starting at 0 and 5. -/
theorem c1_counterexample :
    ∃ turns, groupIntoTurns (parseTranscript overrideLog) = .ok turns ∧
      turns.length = 2 ∧
      (turns.getD 1 default).startIndex ≠ (turns.getD 0 default).endIndex + 1 := by
  refine ⟨_, by rfl, by rfl, by decide⟩

/-- C1 witness: on a concrete three-entry log the grouper output covers
index 1 by exactly one turn. -/
theorem c1_witness :
    ∃! i : Fin sampleTurns.length,
      (sampleTurns.get i).startIndex ≤ (1 : Int) ∧ (1 : Int) ≤ (sampleTurns.get i).endIndex :=
  ((c1_partition sampleEntries sampleTurns (by decide) (by rfl)).2 0 (by decide)
    (fun k hk => absurd hk (Nat.not_lt_zero k)) (by decide)).1 1 (by omega) (by decide)
